import Mathlib

/-!
Verification of the variational LDA estimator core
(`src/gensim/models/ldamodel.py`).

The numeric primitives that the source obtains from scipy/numpy
(digamma `psi`, `numpy.exp`, `gammaln`, `polygamma(1, .)`, python `pow`
and `logsumexp`) are kept abstract, bundled in `Numerics`; all control
flow, bookkeeping and field arithmetic is translated directly from the
Python source over an arbitrary linear ordered field.  The source is
Python 2 code, so a quotient of two integer-valued quantities
(`num_updates / chunksize`) is floor division; it is embedded as
`pyIntDiv` below.
-/

namespace GensimLda

set_option linter.unusedSectionVars false

variable {α : Type} [LinearOrderedField α] [DecidableEq α] {K W : ℕ}

/-- Abstract numeric primitives used by the source through scipy/numpy:
`psi` is `scipy.special.psi` (digamma), `expf` is `numpy.exp`,
`gammaln` is `scipy.special.gammaln`, `polygamma1` is
`scipy.special.polygamma(1, .)`, `powf` is python `pow` and
`logsumexpf` is `logsumexp` applied to a length-`K` vector. -/
structure Numerics (α : Type) (K : ℕ) where
  psi : α → α
  expf : α → α
  gammaln : α → α
  polygamma1 : α → α
  powf : α → α → α
  logsumexpf : (Fin K → α) → α

/-- `dirichlet_expectation` on a vector: `psi(alpha) - psi(sum(alpha))`. -/
def dirichlet_expectation_vec (psi : α → α) (x : Fin K → α) : Fin K → α :=
  fun k => psi (x k) - psi (∑ j, x j)

/-- `dirichlet_expectation` on a matrix: subtract `psi` of each row sum
(row-wise broadcast of the vector case). -/
def dirichlet_expectation_mat (psi : α → α) (x : Fin K → Fin W → α) :
    Fin K → Fin W → α :=
  fun k w => psi (x k w) - psi (∑ j, x k j)

/-- `LdaState`: the sufficient-statistics accumulator.  The Python class
also stores a reference `eta`; that reference aliases the owning model
prior (`LdaState(self.eta, ...)` shares the numpy array with the model)
and is never read or written by `reset`, `merge` or `blend`, so the
embedding keeps the single shared value on the model side
(`LdaModel.eta`) and passes it to `get_lambda` explicitly. -/
structure LdaState (α : Type) (K W : ℕ) where
  sstats : Fin K → Fin W → α
  numdocs : α

/-- `reset`: zero the sufficient statistics. -/
def LdaState.reset (s : LdaState α K W) : LdaState α K W :=
  { s with sstats := fun _ _ => 0, numdocs := 0 }

/-- `merge`: `sstats += other.sstats; numdocs += other.numdocs`. -/
def LdaState.merge (s o : LdaState α K W) : LdaState α K W :=
  { sstats := fun k w => s.sstats k w + o.sstats k w,
    numdocs := s.numdocs + o.numdocs }

/-- `blend(rhot, other, targetsize)`, translated branch by branch from
the source (`targetsize = None` defaults to `self.numdocs`; each
operand is scaled by `1.0 * targetsize / numdocs` unless its `numdocs`
is `0` or equals `targetsize`, in which case the scale is `1.0`). -/
def LdaState.blend (rhot : α) (s o : LdaState α K W) (targetsize? : Option α) :
    LdaState α K W :=
  let targetsize := targetsize?.getD s.numdocs
  let scale1 : α :=
    if s.numdocs = 0 ∨ targetsize = s.numdocs then 1
    else 1 * targetsize / s.numdocs
  let stretched := fun k w => (1 - rhot) * scale1 * s.sstats k w
  let scale2 : α :=
    if o.numdocs = 0 ∨ targetsize = o.numdocs then 1
    else 1 * targetsize / o.numdocs
  { sstats := fun k w => stretched k w + rhot * scale2 * o.sstats k w,
    numdocs := targetsize }

/-- `get_lambda`: `eta + sstats` (the model prior `eta` broadcasts over
columns; the source state holds an alias of the model `eta`, passed
here explicitly). -/
def LdaState.get_lambda (eta : Fin K → α) (s : LdaState α K W) :
    Fin K → Fin W → α :=
  fun k w => eta k + s.sstats k w

/-- `get_Elogbeta`: `dirichlet_expectation(get_lambda())`. -/
def LdaState.get_Elogbeta (psi : α → α) (eta : Fin K → α) (s : LdaState α K W) :
    Fin K → Fin W → α :=
  dirichlet_expectation_mat psi (s.get_lambda eta)

/-- Division that refuses a zero divisor; used to express that `blend`
never divides by zero. -/
def checkedDiv (a b : α) : Option α := if b = 0 then none else some (a / b)

/-- `blend` with every division routed through `checkedDiv`: succeeds
with the value of `blend` exactly when no division by zero happens. -/
def LdaState.blendChecked (rhot : α) (s o : LdaState α K W)
    (targetsize? : Option α) : Option (LdaState α K W) := do
  let targetsize := targetsize?.getD s.numdocs
  let scale1 ←
    if s.numdocs = 0 ∨ targetsize = s.numdocs then some 1
    else checkedDiv (1 * targetsize) s.numdocs
  let stretched := fun k w => (1 - rhot) * scale1 * s.sstats k w
  let scale2 ←
    if o.numdocs = 0 ∨ targetsize = o.numdocs then some 1
    else checkedDiv (1 * targetsize) o.numdocs
  some { sstats := fun k w => stretched k w + rhot * scale2 * o.sstats k w,
         numdocs := targetsize }

/-- The blend update exactly as claim C1 words it: the scale `1`
replaces `t / s.numdocs` only when `s.numdocs = 0`; the incoming
operand is always scaled by `rho * (t / o.numdocs)`. -/
def blendSpecClaim (rhot : α) (s o : LdaState α K W) (targetsize? : Option α) :
    LdaState α K W :=
  let t := targetsize?.getD s.numdocs
  { sstats := fun k w =>
      (1 - rhot) * (if s.numdocs = 0 then 1 else t / s.numdocs) * s.sstats k w
        + rhot * (t / o.numdocs) * o.sstats k w,
    numdocs := t }

/-- The claim formula amended with the zero guard on both operands. -/
def blendSpecGuarded (rhot : α) (s o : LdaState α K W) (targetsize? : Option α) :
    LdaState α K W :=
  let t := targetsize?.getD s.numdocs
  { sstats := fun k w =>
      (1 - rhot) * (if s.numdocs = 0 then 1 else t / s.numdocs) * s.sstats k w
        + rhot * (if o.numdocs = 0 then 1 else t / o.numdocs) * o.sstats k w,
    numdocs := t }

/-- C1 (counterexample): with `s.sstats = 0, s.numdocs = 0`,
`o.sstats = ones, o.numdocs = 0`, `rho = 1`, `targetSize = 3`, the code
takes scale `1` for the other operand (source line 131) and keeps
`o.sstats`, while the formula of the claim divides by
`o.numdocs = 0` (python float division by zero would raise there;
under total field semantics the term is `0`).  `1 x 1` instance
over `ℚ`: the code yields sstats entry `1`, the claim formula `0`. -/
theorem c1_blend_cex :
    (LdaState.blend (α := ℚ) (K := 1) (W := 1) 1
        ⟨fun _ _ => 0, 0⟩ ⟨fun _ _ => 1, 0⟩ (some 3)).sstats 0 0
      ≠ (blendSpecClaim (α := ℚ) (K := 1) (W := 1) 1
        ⟨fun _ _ => 0, 0⟩ ⟨fun _ _ => 1, 0⟩ (some 3)).sstats 0 0 := by
  simp only [LdaState.blend, blendSpecClaim, Option.getD_some]
  norm_num

/-- C1 (amended): `blend(rho, other, targetSize)` sets `sstats` to
`(1-rho)*(t/numdocs)*sstats + rho*(t/other.numdocs)*other.sstats` and
`numdocs` to `t`, where `t` defaults to `self.numdocs`, and scale `1`
replaces a ratio whenever the corresponding `numdocs` is `0` — the
amendment forced by the counterexample is that the zero guard applies
to `other.numdocs` as well, not only to `self.numdocs`.  The concrete
S2 instance `blend(0.5, (10*ones, 5), targetSize=10)` from the zero
state yields `sstats = 10*ones`, `numdocs = 10`. -/
theorem c1_blend_amended :
    (∀ (rhot : α) (s o : LdaState α K W) (t? : Option α) (k : Fin K) (w : Fin W),
      (LdaState.blend rhot s o t?).sstats k w
          = (blendSpecGuarded rhot s o t?).sstats k w
        ∧ (LdaState.blend rhot s o t?).numdocs = t?.getD s.numdocs
        ∧ LdaState.blend rhot s o none = LdaState.blend rhot s o (some s.numdocs))
    ∧ (∀ (k : Fin K) (w : Fin W),
      (LdaState.blend (1/2 : α) (⟨fun _ _ => 0, 0⟩ : LdaState α K W)
          (⟨fun _ _ => 10, 5⟩ : LdaState α K W) (some 10)).sstats k w = 10
        ∧ (LdaState.blend (1/2 : α) (⟨fun _ _ => 0, 0⟩ : LdaState α K W)
          (⟨fun _ _ => 10, 5⟩ : LdaState α K W) (some 10)).numdocs = 10) := by
  constructor
  · intro rhot s o t? k w
    refine ⟨?_, rfl, rfl⟩
    simp only [LdaState.blend, blendSpecGuarded]
    have hs : (if s.numdocs = 0 ∨ t?.getD s.numdocs = s.numdocs then (1:α)
          else 1 * t?.getD s.numdocs / s.numdocs)
        = (if s.numdocs = 0 then 1 else t?.getD s.numdocs / s.numdocs) := by
      by_cases h0 : s.numdocs = 0
      · simp [h0]
      · by_cases ht : t?.getD s.numdocs = s.numdocs
        · simp [h0, ht, div_self h0]
        · simp [h0, ht]
    have ho : (if o.numdocs = 0 ∨ t?.getD s.numdocs = o.numdocs then (1:α)
          else 1 * t?.getD s.numdocs / o.numdocs)
        = (if o.numdocs = 0 then 1 else t?.getD s.numdocs / o.numdocs) := by
      by_cases h0 : o.numdocs = 0
      · simp [h0]
      · by_cases ht : t?.getD s.numdocs = o.numdocs
        · simp [h0, ht, div_self h0]
        · simp [h0, ht]
    rw [hs, ho]
  · intro k w
    constructor
    · simp only [LdaState.blend]
      norm_num
    · rfl

/-- C3: `merge` adds sufficient statistics and document counts exactly,
and is commutative and associative as an operation on
(sstats, numdocs) pairs. -/
theorem c3_merge_exact :
    ∀ a b c : LdaState α K W,
      ((a.merge b).sstats = fun k w => a.sstats k w + b.sstats k w)
        ∧ (a.merge b).numdocs = a.numdocs + b.numdocs
        ∧ a.merge b = b.merge a
        ∧ (a.merge b).merge c = a.merge (b.merge c) := by
  intro a b c
  refine ⟨rfl, rfl, ?_, ?_⟩
  · simp only [LdaState.merge, LdaState.mk.injEq]
    constructor
    · funext k w
      exact add_comm _ _
    · exact add_comm _ _
  · simp only [LdaState.merge, LdaState.mk.injEq]
    constructor
    · funext k w
      exact add_assoc _ _ _
    · exact add_assoc _ _ _

/-- C10: `blend` is total with respect to division — for every
combination of `self.numdocs`, `other.numdocs` and `targetsize`
(including zero counts and `targetsize` equal to either count, where
the source takes scale `1` instead of dividing) the checked-division
variant succeeds and agrees with `blend`, so no division by zero is
ever performed on either operand. -/
theorem c10_blend_no_div_by_zero :
    ∀ (rhot : α) (s o : LdaState α K W) (t? : Option α),
      LdaState.blendChecked rhot s o t? = some (LdaState.blend rhot s o t?) := by
  intro rhot s o t?
  simp only [LdaState.blendChecked, LdaState.blend, checkedDiv]
  by_cases h1 : s.numdocs = 0 ∨ t?.getD s.numdocs = s.numdocs
  · by_cases h2 : o.numdocs = 0 ∨ t?.getD s.numdocs = o.numdocs
    · simp [h1, h2]
    · obtain ⟨h2a, h2b⟩ := not_or.mp h2
      simp [h1, h2a, h2b]
  · obtain ⟨h1a, h1b⟩ := not_or.mp h1
    by_cases h2 : o.numdocs = 0 ∨ t?.getD s.numdocs = o.numdocs
    · simp [h1a, h1b, h2]
    · obtain ⟨h2a, h2b⟩ := not_or.mp h2
      simp [h1a, h1b, h2a, h2b]

/-- The model.  Numeric state is a linear-ordered-field valued record;
`eta` is the column form (the shared numpy array of the `auto` case,
which `LdaState` aliases — see the `LdaState` doc).  `num_updates` is
integer-valued at runtime but shares numpy arithmetic with `numdocs`,
hence α-valued here.  Configuration fields mirror the constructor
attributes used by `update` and its callees. -/
structure LdaModel (α : Type) (K W : ℕ) where
  alpha : Fin K → α
  eta : Fin K → α
  optimize_alpha : Bool
  optimize_eta : Bool
  state : LdaState α K W
  expElogbeta : Fin K → Fin W → α
  num_updates : α
  iterations : ℕ
  gamma_threshold : α
  chunksize : ℕ
  passes : ℕ
  update_every : ℤ
  eval_every : Option ℤ
  max_bound_iterations : ℕ
  bound_improvement_threshold : α
  decay : α
  offset : α
  numworkers : ℕ

/-- `sync_state`: `expElogbeta = exp(state.get_Elogbeta())`. -/
def sync_state (nf : Numerics α K) (m : LdaModel α K W) : LdaModel α K W :=
  { m with expElogbeta := fun k w => nf.expf (m.state.get_Elogbeta nf.psi m.eta k w) }

/-- A sparse document: `(term id, count)` pairs. -/
def Doc (α : Type) (W : ℕ) : Type := List (Fin W × α)

/-- The id array of a document (`ids = [id for id, _ in doc]`). -/
def docIds (doc : Doc α W) : Fin doc.length → Fin W := fun i => (doc.get i).1

/-- The count array of a document (`cts = [cnt for _, cnt in doc]`). -/
def docCts (doc : Doc α W) : Fin doc.length → α := fun i => (doc.get i).2

/-- The `K x Nd` slice `expElogbetad = self.expElogbeta[:, ids]`. -/
def docB (m : LdaModel α K W) (doc : Doc α W) : Fin K → Fin doc.length → α :=
  fun k i => m.expElogbeta k (docIds doc i)

/-- The additive constant `1e-100` guarding `phinorm`. -/
def tiny : α := 1 / 10 ^ 100

/-- `expElogthetad` as a function of the current `gammad`
(`exp(dirichlet_expectation(gammad))`). -/
def expElogthetaOf (nf : Numerics α K) (g : Fin K → α) : Fin K → α :=
  fun k => nf.expf (dirichlet_expectation_vec nf.psi g k)

/-- `phinorm = dot(expElogthetad, expElogbetad) + 1e-100` as a function
of the current `gammad` (the source keeps `expElogthetad` and `phinorm`
in sync with `gammad`: they are recomputed from the fresh `gammad` at
the end of each loop body, and computed from the initial `gammad`
before the loop). -/
def phinormOf {n : ℕ} (nf : Numerics α K) (B : Fin K → Fin n → α)
    (g : Fin K → α) : Fin n → α :=
  fun i => (∑ k, expElogthetaOf nf g k * B k i) + tiny

/-- One fixed-point update of `gammad`:
`gammad = alpha + expElogthetad * dot(cts / phinorm, expElogbetad.T)`. -/
def gammaStep {n : ℕ} (nf : Numerics α K) (alpha : Fin K → α)
    (B : Fin K → Fin n → α) (cts : Fin n → α) (g : Fin K → α) : Fin K → α :=
  fun k => alpha k
    + expElogthetaOf nf g k * ∑ i, cts i / phinormOf nf B g i * B k i

/-- `meanchange = mean(abs(gammad - lastgamma))`. -/
def meanchange (g g2 : Fin K → α) : α := (∑ k, |g k - g2 k|) / K

/-- The per-document loop `for _ in xrange(self.iterations)`, breaking
as soon as `meanchange < gamma_threshold`; returns the final `gammad`
together with the number of loop bodies executed. -/
def inferLoop {n : ℕ} (nf : Numerics α K) (alpha : Fin K → α)
    (B : Fin K → Fin n → α) (cts : Fin n → α) (thr : α) :
    ℕ → (Fin K → α) → (Fin K → α) × ℕ
  | 0, g => (g, 0)
  | Nat.succ it, g =>
    if meanchange (gammaStep nf alpha B cts g) g < thr then
      (gammaStep nf alpha B cts g, 1)
    else
      ((inferLoop nf alpha B cts thr it (gammaStep nf alpha B cts g)).1,
       (inferLoop nf alpha B cts thr it (gammaStep nf alpha B cts g)).2 + 1)

/-- The per-document loop with the two divisions checked: `cts / phinorm`
requires every `phinorm` component nonzero, and the `mean` in the
convergence test requires `K` nonzero. -/
def inferLoopChecked {n : ℕ} (nf : Numerics α K) (alpha : Fin K → α)
    (B : Fin K → Fin n → α) (cts : Fin n → α) (thr : α) :
    ℕ → (Fin K → α) → Option ((Fin K → α) × ℕ)
  | 0, g => some (g, 0)
  | Nat.succ it, g =>
    if (∀ i, phinormOf nf B g i ≠ 0) ∧ (K : α) ≠ 0 then
      if meanchange (gammaStep nf alpha B cts g) g < thr then
        some (gammaStep nf alpha B cts g, 1)
      else
        Option.map (fun r => (r.1, r.2 + 1))
          (inferLoopChecked nf alpha B cts thr it (gammaStep nf alpha B cts g))
    else none

/-- One fixed-point update for document `doc` (the loop body map). -/
def docStep (nf : Numerics α K) (m : LdaModel α K W) (doc : Doc α W) :
    (Fin K → α) → Fin K → α :=
  gammaStep nf m.alpha (docB m doc) (docCts doc)

/-- Per-document inference: run the fixed-point loop from the initial
(randomly drawn) `gammad`. -/
def inferDoc (nf : Numerics α K) (m : LdaModel α K W) (doc : Doc α W)
    (g0 : Fin K → α) : (Fin K → α) × ℕ :=
  inferLoop nf m.alpha (docB m doc) (docCts doc) m.gamma_threshold m.iterations g0

/-- Contribution of one document to the chunk sufficient statistics:
`sstats[:, ids] += outer(expElogthetad.T, cts / phinorm)` with
`expElogthetad` and `phinorm` derived from the final `gammad`.  The
spec requires term ids distinct within a document; for repeated ids
numpy fancy-index assignment would drop duplicates while this sum adds
them. -/
def docSstat (nf : Numerics α K) (m : LdaModel α K W) (doc : Doc α W)
    (gfin : Fin K → α) (k : Fin K) (w : Fin W) : α :=
  ∑ i, if docIds doc i = w then
    expElogthetaOf nf gfin k * (docCts doc i / phinormOf nf (docB m doc) gfin i)
    else 0

/-- `inference(chunk, collect_sstats)`: per-document fixed-point loops;
the initial `gamma` matrix is the RNG draw, supplied as `rng` applied
to the draw counter `start + d`.  When `collect_sstats` the final
`sstats *= self.expElogbeta` is applied. -/
def inference (nf : Numerics α K) (m : LdaModel α K W) (chunk : List (Doc α W))
    (rng : ℕ → Fin K → α) (start : ℕ) (collect_sstats : Bool) :
    List (Fin K → α) × Option (Fin K → Fin W → α) :=
  let gammas := (List.range chunk.length).map
    (fun d => (inferDoc nf m (chunk.getD d []) (rng (start + d))).1)
  let sstats : Option (Fin K → Fin W → α) :=
    if collect_sstats then
      some (fun k w => m.expElogbeta k w
        * ∑ d ∈ Finset.range chunk.length,
            docSstat nf m (chunk.getD d []) (gammas.getD d (fun _ => 0)) k w)
    else none
  (gammas, sstats)

/-- The `inference` method viewed as acting on the model: the body of
the source method contains no assignment to any `self` attribute
(`expElogbetad = self.expElogbeta[:, ids]` takes a fancy-indexed copy),
so the model component of the result is the unchanged receiver. -/
def inference_method (nf : Numerics α K) (m : LdaModel α K W)
    (chunk : List (Doc α W)) (rng : ℕ → Fin K → α) (start : ℕ)
    (collect_sstats : Bool) :
    LdaModel α K W × (List (Fin K → α) × Option (Fin K → Fin W → α)) :=
  (m, inference nf m chunk rng start collect_sstats)

/-- Full characterization of the per-document loop: the result is the
`c`-fold iterate of the update map, `c` is at most `iters`, the loop
stops early exactly on the first iteration whose meanchange is below
the threshold, and otherwise runs all `iters` iterations. -/
theorem inferLoop_spec {n : ℕ} (nf : Numerics α K) (alpha : Fin K → α)
    (B : Fin K → Fin n → α) (cts : Fin n → α) (thr : α) :
    ∀ (iters : ℕ) (g0 : Fin K → α),
      (inferLoop nf alpha B cts thr iters g0).1
          = (gammaStep nf alpha B cts)^[(inferLoop nf alpha B cts thr iters g0).2] g0
        ∧ (inferLoop nf alpha B cts thr iters g0).2 ≤ iters
        ∧ ((inferLoop nf alpha B cts thr iters g0).2 = iters
            ∨ (0 < (inferLoop nf alpha B cts thr iters g0).2
              ∧ meanchange
                  ((gammaStep nf alpha B cts)^[(inferLoop nf alpha B cts thr iters g0).2] g0)
                  ((gammaStep nf alpha B cts)^[(inferLoop nf alpha B cts thr iters g0).2 - 1] g0)
                < thr))
        ∧ ∀ j : ℕ, 0 < j ∧ j < (inferLoop nf alpha B cts thr iters g0).2 →
            ¬ meanchange ((gammaStep nf alpha B cts)^[j] g0)
                ((gammaStep nf alpha B cts)^[j - 1] g0) < thr := by
  intro iters
  induction iters with
  | zero =>
    intro g0
    refine ⟨by simp [inferLoop], by simp [inferLoop], Or.inl rfl, ?_⟩
    intro j hj
    simp [inferLoop] at hj
  | succ it ih =>
    intro g0
    by_cases hc : meanchange (gammaStep nf alpha B cts g0) g0 < thr
    · simp only [inferLoop, if_pos hc]
      refine ⟨by simp, by omega, Or.inr ⟨one_pos, by simpa using hc⟩, ?_⟩
      intro j hj
      omega
    · simp only [inferLoop, if_neg hc]
      obtain ⟨ih1, ih2, ih3, ih4⟩ := ih (gammaStep nf alpha B cts g0)
      have hiter : ∀ j : ℕ,
          (gammaStep nf alpha B cts)^[j] (gammaStep nf alpha B cts g0)
            = (gammaStep nf alpha B cts)^[j + 1] g0 := by
        intro j
        rw [Function.iterate_succ_apply]
      refine ⟨?_, by omega, ?_, ?_⟩
      · rw [ih1, hiter]
      · rcases ih3 with h | ⟨hpos, h⟩
        · exact Or.inl (by omega)
        · refine Or.inr ⟨by omega, ?_⟩
          have e1 := hiter (inferLoop nf alpha B cts thr it (gammaStep nf alpha B cts g0)).2
          have e2 : (gammaStep nf alpha B cts)^[(inferLoop nf alpha B cts thr it
                (gammaStep nf alpha B cts g0)).2 - 1] (gammaStep nf alpha B cts g0)
              = (gammaStep nf alpha B cts)^[(inferLoop nf alpha B cts thr it
                (gammaStep nf alpha B cts g0)).2] g0 := by
            rw [hiter]
            congr 1
            omega
          simpa only [Nat.add_sub_cancel, e1, e2] using h
      · intro j hj
        rcases Nat.lt_or_ge j 2 with hj2 | hj2
        · have hj1 : j = 1 := by omega
          subst hj1
          simpa using hc
        · have := ih4 (j - 1) ⟨by omega, by omega⟩
          have e1 : (gammaStep nf alpha B cts)^[j - 1] (gammaStep nf alpha B cts g0)
              = (gammaStep nf alpha B cts)^[j] g0 := by
            rw [hiter]
            congr 1
            omega
          have e2 : (gammaStep nf alpha B cts)^[j - 1 - 1] (gammaStep nf alpha B cts g0)
              = (gammaStep nf alpha B cts)^[j - 1] g0 := by
            rw [hiter]
            congr 1
            omega
          rw [e1, e2] at this
          exact this

/-- C2: for every document, the fixed-point loop executes at most
`iterations` bodies, each body performing the Lee-Seung collapsed
update `gammad = alpha + expElogthetad * dot(cts / phinorm,
expElogbetad.T)` (the map `docStep`), breaking exactly when
`mean(abs(gammad - lastgamma)) < gamma_threshold`; hence the returned
`gammad` either satisfies the convergence predicate or exactly
`iterations` bodies were executed; and `inference` returns for each
document of the chunk exactly the result of that loop. -/
theorem c2_inference_loop :
    ∀ (nf : Numerics α K) (m : LdaModel α K W) (doc : Doc α W) (g0 : Fin K → α),
      (inferDoc nf m doc g0).1
          = (docStep nf m doc)^[(inferDoc nf m doc g0).2] g0
        ∧ (inferDoc nf m doc g0).2 ≤ m.iterations
        ∧ ((inferDoc nf m doc g0).2 = m.iterations
            ∨ (0 < (inferDoc nf m doc g0).2
              ∧ meanchange ((docStep nf m doc)^[(inferDoc nf m doc g0).2] g0)
                  ((docStep nf m doc)^[(inferDoc nf m doc g0).2 - 1] g0)
                < m.gamma_threshold))
        ∧ (∀ j : ℕ, 0 < j ∧ j < (inferDoc nf m doc g0).2 →
            ¬ meanchange ((docStep nf m doc)^[j] g0) ((docStep nf m doc)^[j - 1] g0)
              < m.gamma_threshold)
        ∧ ∀ (chunk : List (Doc α W)) (rng : ℕ → Fin K → α) (start : ℕ)
            (collect : Bool),
            (inference nf m chunk rng start collect).1
              = (List.range chunk.length).map
                  (fun d => (inferDoc nf m (chunk.getD d []) (rng (start + d))).1) := by
  intro nf m doc g0
  obtain ⟨h1, h2, h3, h4⟩ :=
    inferLoop_spec nf m.alpha (docB m doc) (docCts doc) m.gamma_threshold
      m.iterations g0
  exact ⟨h1, h2, h3, h4, fun chunk rng start collect => rfl⟩

/-- When every `phinorm` component is nonzero at every gamma (in
particular vacuously, for a document with no terms) and `K` is
nonzero, the checked loop succeeds and agrees with the plain loop. -/
theorem inferLoopChecked_total {n : ℕ} (nf : Numerics α K) (alpha : Fin K → α)
    (B : Fin K → Fin n → α) (cts : Fin n → α) (thr : α)
    (hok : ∀ (g : Fin K → α) (i : Fin n), phinormOf nf B g i ≠ 0)
    (hK : (K : α) ≠ 0) :
    ∀ (iters : ℕ) (g : Fin K → α),
      inferLoopChecked nf alpha B cts thr iters g
        = some (inferLoop nf alpha B cts thr iters g) := by
  intro iters
  induction iters with
  | zero => intro g; rfl
  | succ it ih =>
    intro g
    have hcond : (∀ i, phinormOf nf B g i ≠ 0) ∧ (K : α) ≠ 0 := ⟨hok g, hK⟩
    by_cases hc : meanchange (gammaStep nf alpha B cts g) g < thr
    · simp only [inferLoopChecked, inferLoop, if_pos hcond, if_pos hc]
    · simp only [inferLoopChecked, inferLoop, if_pos hcond, if_neg hc, ih]
      rfl

/-- C7: on an empty document the update map is constantly `alpha`
(the dot product over zero terms vanishes), so `gammad = alpha` already
after the first loop body and the returned `gammad` is `alpha`
(for `iterations >= 1`); and no division by zero is performed: the
checked loop succeeds (there are no `cts / phinorm` divisions at all,
and the convergence mean divides by `K > 0`). -/
theorem c7_empty_doc :
    ∀ (nf : Numerics α K) (m : LdaModel α K W) (g0 : Fin K → α),
      0 < K → 1 ≤ m.iterations →
      docStep nf m ([] : Doc α W) g0 = m.alpha
        ∧ (inferDoc nf m ([] : Doc α W) g0).1 = m.alpha
        ∧ inferLoopChecked nf m.alpha (docB m ([] : Doc α W))
            (docCts ([] : Doc α W)) m.gamma_threshold m.iterations g0
          = some (inferLoop nf m.alpha (docB m ([] : Doc α W))
            (docCts ([] : Doc α W)) m.gamma_threshold m.iterations g0) := by
  intro nf m g0 hK hit
  have hstep : ∀ g : Fin K → α, docStep nf m ([] : Doc α W) g = m.alpha := by
    intro g
    funext k
    simp [docStep, gammaStep]
  refine ⟨hstep g0, ?_, ?_⟩
  · obtain ⟨h1, h2, h3, h4⟩ :=
      inferLoop_spec nf m.alpha (docB m ([] : Doc α W)) (docCts ([] : Doc α W))
        m.gamma_threshold m.iterations g0
    show (inferLoop nf m.alpha (docB m ([] : Doc α W)) (docCts ([] : Doc α W))
        m.gamma_threshold m.iterations g0).1 = m.alpha
    have hc1 : 1 ≤ (inferLoop nf m.alpha (docB m ([] : Doc α W))
        (docCts ([] : Doc α W)) m.gamma_threshold m.iterations g0).2 := by
      rcases h3 with h | ⟨h, _⟩
      · omega
      · omega
    rw [h1]
    have hc2 : (inferLoop nf m.alpha (docB m ([] : Doc α W)) (docCts ([] : Doc α W))
          m.gamma_threshold m.iterations g0).2
        = ((inferLoop nf m.alpha (docB m ([] : Doc α W)) (docCts ([] : Doc α W))
          m.gamma_threshold m.iterations g0).2 - 1) + 1 := by omega
    rw [hc2, Function.iterate_succ_apply']
    exact hstep _
  · have hKne : (K : α) ≠ 0 := by
      exact_mod_cast Nat.pos_iff_ne_zero.mp hK
    exact inferLoopChecked_total nf m.alpha _ _ _ (fun g i => Fin.elim0 i) hKne
      m.iterations g0

/-- C9: `inference(chunk, collect_sstats=False)` is read-only with
respect to the model — the method body assigns no attribute of `self`,
so viewed as a state transformer it returns the receiver unchanged
(hence `alpha`, `eta`, `state.sstats`, `num_updates` and `expElogbeta`
are all untouched), it returns no chunk sstats, and it is
deterministic: two calls with equal model, chunk and RNG stream
(same seed) return equal `gamma`. -/
theorem c9_inference_pure :
    ∀ (nf : Numerics α K) (m1 m2 : LdaModel α K W)
      (chunk1 chunk2 : List (Doc α W)) (rng1 rng2 : ℕ → Fin K → α)
      (s1 s2 : ℕ),
      (inference_method nf m1 chunk1 rng1 s1 false).1 = m1
        ∧ (inference_method nf m1 chunk1 rng1 s1 false).2.2 = none
        ∧ (m1 = m2 → chunk1 = chunk2 → rng1 = rng2 → s1 = s2 →
            (inference_method nf m1 chunk1 rng1 s1 false).2.1
              = (inference_method nf m2 chunk2 rng2 s2 false).2.1) := by
  intro nf m1 m2 chunk1 chunk2 rng1 rng2 s1 s2
  refine ⟨rfl, ?_, ?_⟩
  · simp [inference_method, inference]
  · intro h1 h2 h3 h4
    subst h1
    subst h2
    subst h3
    subst h4
    rfl

/-- The Newton step `dalpha` of `update_alpha` (Huang closed form):
`logphat = sum(dirichlet_expectation(g) for g in gammat) / N`,
`gradf = N (psi(sum alpha) - psi(alpha) + logphat)`,
`c = N psi1(sum alpha)`, `q = -N psi1(alpha)`,
`b = sum(gradf/q) / (1/c + sum(1/q))`, `dalpha = -(gradf - b) / q`. -/
def alphaStep (nf : Numerics α K) (m : LdaModel α K W)
    (gammat : List (Fin K → α)) : Fin K → α :=
  let N : α := (gammat.length : α)
  let logphat : Fin K → α :=
    fun k => (gammat.map (fun g => dirichlet_expectation_vec nf.psi g k)).sum / N
  let gradf : Fin K → α :=
    fun k => N * (nf.psi (∑ j, m.alpha j) - nf.psi (m.alpha k) + logphat k)
  let c : α := N * nf.polygamma1 (∑ j, m.alpha j)
  let q : Fin K → α := fun k => -N * nf.polygamma1 (m.alpha k)
  let b : α := (∑ k, gradf k / q k) / (1 / c + ∑ k, 1 / q k)
  fun k => -(gradf k - b) / q k

/-- `update_alpha(gammat, rho)`: accept the Newton step iff
`all(rho * dalpha + self.alpha > 0)`, else leave `alpha` unchanged
(and only log a warning); return the possibly updated `alpha`. -/
def update_alpha (nf : Numerics α K) (m : LdaModel α K W)
    (gammat : List (Fin K → α)) (rho : α) : LdaModel α K W × (Fin K → α) :=
  let dalpha := alphaStep nf m gammat
  if ∀ k, 0 < rho * dalpha k + m.alpha k then
    ({ m with alpha := fun k => m.alpha k + rho * dalpha k },
     fun k => m.alpha k + rho * dalpha k)
  else (m, m.alpha)

/-- The Newton step `deta` of `update_eta`; identical closed form with
`N = num_terms` and `logphat` averaging `dirichlet_expectation` over
the columns of `lambdat`.  (The source guard rejecting a full-matrix
`eta` is unrepresentable here: the embedded `eta` is the column form
required by the optimizer.) -/
def etaStep (nf : Numerics α K) (m : LdaModel α K W)
    (lambdat : Fin K → Fin W → α) : Fin K → α :=
  let N : α := (W : α)
  let logphat : Fin K → α :=
    fun k => (∑ w, dirichlet_expectation_vec nf.psi (fun j => lambdat j w) k) / N
  let gradf : Fin K → α :=
    fun k => N * (nf.psi (∑ j, m.eta j) - nf.psi (m.eta k) + logphat k)
  let c : α := N * nf.polygamma1 (∑ j, m.eta j)
  let q : Fin K → α := fun k => -N * nf.polygamma1 (m.eta k)
  let b : α := (∑ k, gradf k / q k) / (1 / c + ∑ k, 1 / q k)
  fun k => -(gradf k - b) / q k

/-- `update_eta(lambdat, rho)`: accept iff
`all(rho * deta + self.eta > 0)`, else leave `eta` unchanged.  The
updated value is written through the shared array, so the state prior
(`LdaState.eta`, an alias of the model `eta`) changes with it. -/
def update_eta (nf : Numerics α K) (m : LdaModel α K W)
    (lambdat : Fin K → Fin W → α) (rho : α) : LdaModel α K W × (Fin K → α) :=
  let deta := etaStep nf m lambdat
  if ∀ k, 0 < rho * deta k + m.eta k then
    ({ m with eta := fun k => m.eta k + rho * deta k },
     fun k => m.eta k + rho * deta k)
  else (m, m.eta)

/-- `do_mstep(rho, other, extra_pass)`: blend the collected statistics
into the state, re-sync `expElogbeta`, then (optionally) run the eta
optimizer on the fresh `lambda`, and finally bump `num_updates` by
`other.numdocs` unless this is an extra pass.  The debug logging
(`diff`, `print_topics`) has no state effect and is omitted. -/
def do_mstep (nf : Numerics α K) (m : LdaModel α K W) (rho : α)
    (other : LdaState α K W) (extra_pass : Bool) : LdaModel α K W :=
  let m1 := { m with state := LdaState.blend rho m.state other none }
  let m2 := sync_state nf m1
  let m3 :=
    if m2.optimize_eta then (update_eta nf m2 (m2.state.get_lambda m2.eta) rho).1
    else m2
  if extra_pass then m3
  else { m3 with num_updates := m3.num_updates + other.numdocs }

/-- C5: with a strictly positive `alpha`, `update_alpha` installs
`alpha + rho * dalpha` iff that vector is strictly positive
elementwise; otherwise the model is exactly unchanged; the returned
vector is the (possibly unchanged) model `alpha`; and `alpha` is
strictly positive after the call in both cases. -/
theorem c5_update_alpha :
    ∀ (nf : Numerics α K) (m : LdaModel α K W) (gammat : List (Fin K → α))
      (rho : α),
      (∀ k, 0 < m.alpha k) →
      (((update_alpha nf m gammat rho).1.alpha
            = fun k => m.alpha k + rho * alphaStep nf m gammat k)
          ↔ (∀ k, 0 < m.alpha k + rho * alphaStep nf m gammat k))
        ∧ (¬ (∀ k, 0 < m.alpha k + rho * alphaStep nf m gammat k) →
            (update_alpha nf m gammat rho).1 = m)
        ∧ (update_alpha nf m gammat rho).2 = (update_alpha nf m gammat rho).1.alpha
        ∧ ∀ k, 0 < (update_alpha nf m gammat rho).1.alpha k := by
  intro nf m gammat rho hpos
  have hcomm : (∀ k, 0 < rho * alphaStep nf m gammat k + m.alpha k)
      ↔ (∀ k, 0 < m.alpha k + rho * alphaStep nf m gammat k) := by
    refine forall_congr' fun k => ?_
    rw [add_comm]
  by_cases hcond : ∀ k, 0 < rho * alphaStep nf m gammat k + m.alpha k
  · simp only [update_alpha, if_pos hcond]
    refine ⟨iff_of_true trivial (hcomm.mp hcond), ?_, trivial, ?_⟩
    · intro h
      exact absurd (hcomm.mp hcond) h
    · intro k
      have := hcond k
      linarith
  · simp only [update_alpha, if_neg hcond]
    refine ⟨?_, fun _ => trivial, trivial, hpos⟩
    refine iff_of_false ?_ (fun h => hcond (hcomm.mpr h))
    intro heq
    apply hcond
    intro k
    have hk := congrFun heq k
    have hz : rho * alphaStep nf m gammat k = 0 := by
      have := self_eq_add_right.mp hk
      linarith
    rw [hz, zero_add]
    exact hpos k

/-- Shared concrete numeric package over `ℚ` (identity digamma and
exp, unit trigamma, first-argument pow) used by the witnesses. -/
def nfQ : Numerics ℚ 1 :=
  { psi := id, expf := id, gammaln := id, polygamma1 := fun _ => 1,
    powf := fun a _ => a, logsumexpf := fun g => g 0 }

/-- Shared concrete 1-topic, 1-term model over `ℚ` for witnesses. -/
def modelQ : LdaModel ℚ 1 1 :=
  { alpha := fun _ => 1, eta := fun _ => 1, optimize_alpha := false,
    optimize_eta := false, state := ⟨fun _ _ => 0, 0⟩,
    expElogbeta := fun _ _ => 1, num_updates := 0, iterations := 1,
    gamma_threshold := 1, chunksize := 1, passes := 1, update_every := 1,
    eval_every := none, max_bound_iterations := 1,
    bound_improvement_threshold := 0, decay := 1/2, offset := 1,
    numworkers := 1 }

/-- Shared concrete RNG stream (all gamma draws equal one). -/
def rngQ : ℕ → Fin 1 → ℚ := fun _ _ => 1

/-- C7 witness: the empty-document theorem at a concrete 1-topic model
with one loop iteration allowed. -/
theorem c7_empty_doc_witness :
    (0 < 1 ∧ 1 ≤ modelQ.iterations)
      ∧ docStep nfQ modelQ ([] : Doc ℚ 1) (fun _ => 2) = modelQ.alpha
      ∧ (inferDoc nfQ modelQ ([] : Doc ℚ 1) (fun _ => 2)).1 = modelQ.alpha := by
  have hi : 1 ≤ modelQ.iterations := by norm_num [modelQ]
  have h := c7_empty_doc nfQ modelQ (fun _ => 2) (by norm_num) hi
  exact ⟨⟨by norm_num, hi⟩, h.1, h.2.1⟩

/-- C5 witness: the theorem applied at a strictly positive concrete
`alpha`. -/
theorem c5_update_alpha_witness :
    (∀ k : Fin 1, 0 < modelQ.alpha k)
      ∧ (((update_alpha nfQ modelQ [] 0).1.alpha
            = fun k => modelQ.alpha k + 0 * alphaStep nfQ modelQ [] k)
          ↔ ∀ k, 0 < modelQ.alpha k + 0 * alphaStep nfQ modelQ [] k)
      ∧ ∀ k, 0 < (update_alpha nfQ modelQ [] 0).1.alpha k := by
  have hpos : ∀ k : Fin 1, 0 < modelQ.alpha k := by
    intro k
    norm_num [modelQ]
  have h := c5_update_alpha nfQ modelQ [] 0 hpos
  exact ⟨hpos, h.1, h.2.2.2⟩

/-- C4 (amended): when the eta optimizer is disabled, `do_mstep`
leaves `expElogbeta` equal to `exp(dirichlet_expectation(lambda))` for
the current `lambda = eta + sstats` — the sync obligation holds at
return.  (With `optimize_eta` the source updates the shared `eta`
array after `sync_state`, see the counterexample.) -/
theorem c4_sync_amended :
    ∀ (nf : Numerics α K) (m : LdaModel α K W) (rho : α)
      (other : LdaState α K W) (extra : Bool),
      m.optimize_eta = false →
      (do_mstep nf m rho other extra).expElogbeta
        = fun k w => nf.expf (dirichlet_expectation_mat nf.psi
            ((do_mstep nf m rho other extra).state.get_lambda
              (do_mstep nf m rho other extra).eta) k w) := by
  intro nf m rho other extra hopt
  cases extra <;>
    simp [do_mstep, sync_state, hopt, LdaState.get_Elogbeta]

/-- C4 witness: the amended theorem at the concrete model (eta
optimization off). -/
theorem c4_sync_witness :
    modelQ.optimize_eta = false
      ∧ (do_mstep nfQ modelQ 0 ⟨fun _ _ => 0, 0⟩ false).expElogbeta
          = fun k w => nfQ.expf (dirichlet_expectation_mat nfQ.psi
              ((do_mstep nfQ modelQ 0 ⟨fun _ _ => 0, 0⟩ false).state.get_lambda
                (do_mstep nfQ modelQ 0 ⟨fun _ _ => 0, 0⟩ false).eta) k w) :=
  ⟨rfl, c4_sync_amended nfQ modelQ 0 ⟨fun _ _ => 0, 0⟩ false rfl⟩

/-- Concrete numeric package over `ℝ` for the C4 counterexample:
digamma and gammaln instantiated to the identity, `polygamma(1, .)` to
the constant `1`, exp to the genuine `Real.exp` (whose injectivity
separates the stale cache from the synced value). -/
noncomputable def cexNf : Numerics ℝ 2 :=
  ⟨id, Real.exp, id, fun _ => 1, fun a _ => a, fun g => g 0⟩

/-- Concrete 2-topic, 2-term model with the eta optimizer enabled. -/
noncomputable def cexM : LdaModel ℝ 2 2 :=
  { alpha := fun _ => 1, eta := fun _ => 1, optimize_alpha := false,
    optimize_eta := true, state := ⟨fun _ _ => 0, 0⟩,
    expElogbeta := fun _ _ => 1, num_updates := 0, iterations := 1,
    gamma_threshold := 1, chunksize := 1, passes := 1,
    update_every := 1, eval_every := none, max_bound_iterations := 1,
    bound_improvement_threshold := 0, decay := 1, offset := 1,
    numworkers := 1 }

/-- Concrete collected statistics: first row ones, second row zeros. -/
noncomputable def cexO : LdaState ℝ 2 2 :=
  ⟨fun k _ => if k = 0 then 1 else 0, 0⟩

/-- C4 (counterexample): with the eta optimizer enabled, `do_mstep`
computes `expElogbeta` from `lambda` *before* `update_eta` mutates the
shared `eta` array (`LdaState` holds an alias of the model `eta`), so
at return the cache no longer matches
`exp(dirichlet_expectation(eta + sstats))` for the current `eta`.
Trace: `alpha = eta = (1,1)`, zero state, `other := cexO`, `rho = 1`:
the blend makes `lambda = ((2,2),(1,1))` and the cache entry `(0,0)`
becomes `exp(-2)`; the Newton step is accepted and moves `eta` to
`(2,1)`, so the current `lambda` is `((3,3),(1,1))` whose synced entry
`(0,0)` would be `exp(-3)`. -/
theorem c4_sync_cex :
    ¬ ((do_mstep cexNf cexM 1 cexO false).expElogbeta
        = fun k w => cexNf.expf (dirichlet_expectation_mat cexNf.psi
            ((do_mstep cexNf cexM 1 cexO false).state.get_lambda
              (do_mstep cexNf cexM 1 cexO false).eta) k w)) := by
  intro h
  have h00 := congrFun (congrFun h 0) 0
  simp only [do_mstep, sync_state, update_eta, etaStep, cexNf, cexM, cexO,
    LdaState.blend, LdaState.get_lambda, LdaState.get_Elogbeta,
    dirichlet_expectation_mat, dirichlet_expectation_vec, Option.getD_none,
    id_eq, Fin.sum_univ_two, Fin.forall_fin_two] at h00
  norm_num at h00

/-- `do_estep(chunk, state)`: run inference with statistics collection
and accumulate into the accumulator (`state.sstats += sstats;
state.numdocs += gamma.shape[0]`). -/
def do_estep (nf : Numerics α K) (m : LdaModel α K W) (chunk : List (Doc α W))
    (rng : ℕ → Fin K → α) (start : ℕ) (other : LdaState α K W) :
    List (Fin K → α) × LdaState α K W :=
  let r := inference nf m chunk rng start true
  (r.1,
   { sstats := fun k w => other.sstats k w + (r.2.getD (fun _ _ => 0)) k w,
     numdocs := other.numdocs + (r.1.length : α) })

/-- The variational bound `bound(corpus, gamma, subsample_ratio)`.  The
per-document `gamma` is inferred (one RNG draw per document) when not
supplied.  `sum_eta` follows the column-vector branch
(`numpy.sum(eta, 1)` of a `K x 1` array is `eta` itself); the scalar
branch `eta * num_terms` is not representable with the column `eta` of
this embedding. -/
def bound (nf : Numerics α K) (m : LdaModel α K W) (corpus : List (Doc α W))
    (gammaOpt : Option (List (Fin K → α))) (subsample_ratio : α)
    (rng : ℕ → Fin K → α) (start : ℕ) : α :=
  let lam := m.state.get_lambda m.eta
  let Elogbeta := dirichlet_expectation_mat nf.psi lam
  let docScore : ℕ → Doc α W → α := fun d doc =>
    let gammad : Fin K → α :=
      match gammaOpt with
      | none => (inference nf m [doc] rng (start + d) false).1.getD 0 (fun _ => 0)
      | some gs => gs.getD d (fun _ => 0)
    let Elogthetad := dirichlet_expectation_vec nf.psi gammad
    (doc.map (fun q => q.2 * nf.logsumexpf (fun k => Elogthetad k + Elogbeta k q.1))).sum
      + (∑ k, (m.alpha k - gammad k) * Elogthetad k)
      + (∑ k, (nf.gammaln (gammad k) - nf.gammaln (m.alpha k)))
      + (nf.gammaln (∑ k, m.alpha k) - nf.gammaln (∑ k, gammad k))
  let score1 := ((List.range corpus.length).map (fun d => docScore d (corpus.getD d []))).sum
  let score2 := score1 * subsample_ratio
  let score3 := score2 + ∑ k, ∑ w, (m.eta k - lam k w) * Elogbeta k w
  let score4 := score3 + ∑ k, ∑ w, (nf.gammaln (lam k w) - nf.gammaln (m.eta k))
  score4 + ∑ k, (nf.gammaln (m.eta k) - nf.gammaln (∑ w, lam k w))

/-- `log_perplexity(chunk, total_docs)`: the per-word bound of the
chunk treated as a subsample of `total_docs` documents. -/
def log_perplexity (nf : Numerics α K) (m : LdaModel α K W)
    (chunk : List (Doc α W)) (total_docs : ℕ) (rng : ℕ → Fin K → α)
    (start : ℕ) : α :=
  let corpus_words := (chunk.map (fun doc => (doc.map (fun q => q.2)).sum)).sum
  let subsample_ratio : α := 1 * (total_docs : α) / (chunk.length : α)
  bound nf m chunk none subsample_ratio rng start / (subsample_ratio * corpus_words)

/-- Python-2 division of the integer-valued `num_updates` by the
integer `chunksize`: floor division. -/
def pyIntDiv [FloorRing α] (a : α) (n : ℕ) : α := ((⌊a / (n : α)⌋ : ℤ) : α)

/-- The learning rate closure
`rho() = pow(offset + pass_ + (self.num_updates / chunksize), -decay)`
of `update` (`/` on two python-2 ints is floor division). -/
def rhoOf [FloorRing α] (powf : α → α → α) (off dec : α) (p : ℕ) (cs : ℕ)
    (nu : α) : α :=
  powf (off + (p : α) + pyIntDiv nu cs) (-dec)

/-- Fuel-driven chunking (`utils.grouper`): split a list into
consecutive chunks of `n` elements, the last chunk possibly shorter.
The fuel (initialized to the list length) makes the recursion
structural; for `n = 0` (where the python iterator would not progress)
it returns garbage, and every caller guarantees `1 <= n`. -/
def grouperAux {δ : Type} (n : ℕ) : ℕ → List δ → List (List δ)
  | _, [] => []
  | 0, _ :: _ => []
  | Nat.succ fuel, x :: xs => (x :: xs).take n :: grouperAux n fuel ((x :: xs).drop n)

/-- `utils.grouper(corpus, chunksize)` materialized as a list. -/
def grouper {δ : Type} (n : ℕ) (l : List δ) : List (List δ) :=
  grouperAux n l.length l

/-- State threaded through the chunk loop of `update`: the model, the
accumulator `other`, the `dirty` flag, the running document count
`reallen`, the RNG draw counter, the last computed per-word bound with
its `perwordbound_updated` flag, and the ghost log of
`(num_updates, rho)` pairs at each M-step. -/
structure ChunkSt (α : Type) (K W : ℕ) where
  m : LdaModel α K W
  other : LdaState α K W
  dirty : Bool
  reallen : ℕ
  ctr : ℕ
  perwordbound : α
  per_updated : Bool
  ilog : List (α × α)

/-- Python truthiness of the `eval_every` option. -/
def evalTruthy : Option ℤ → Bool
  | none => false
  | some z => decide (z ≠ 0)

/-- The `if self.optimize_alpha: self.update_alpha(gammat, rho())`
fragment of the chunk loop. -/
def alphaPass [FloorRing α] (nf : Numerics α K) (p cs : ℕ)
    (gammat : List (Fin K → α)) (m : LdaModel α K W) : LdaModel α K W :=
  if m.optimize_alpha then
    (update_alpha nf m gammat
      (rhoOf nf.powf m.offset m.decay p cs m.num_updates)).1
  else m

/-- One iteration of the chunk loop of `update` (serial branch):
optional bound evaluation, E-step, optional alpha update, and the
M-step when `update_every` divides the chunk index. -/
def processChunk [FloorRing α] (nf : Numerics α K) (rng : ℕ → Fin K → α)
    (p cs lencorpus : ℕ) (idx : ℕ) (chunk : List (Doc α W))
    (st : ChunkSt α K W) : ChunkSt α K W :=
  let reallen := st.reallen + chunk.length
  let evalHit : Bool := evalTruthy st.m.eval_every
    && decide (reallen = lencorpus
        ∨ ((idx : ℤ) + 1) % (st.m.eval_every.getD 0 * (st.m.numworkers : ℤ)) = 0)
  let pw := if evalHit then log_perplexity nf st.m chunk lencorpus rng st.ctr
    else st.perwordbound
  let pu := evalHit || st.per_updated
  let ctr1 := if evalHit then st.ctr + chunk.length else st.ctr
  let es := do_estep nf st.m chunk rng ctr1 st.other
  let ctr2 := ctr1 + chunk.length
  let m1 := alphaPass nf p cs es.1 st.m
  if decide (st.m.update_every ≠ 0)
      && decide (((idx : ℤ) + 1) % (st.m.update_every * (st.m.numworkers : ℤ)) = 0) then
    { m := do_mstep nf m1 (rhoOf nf.powf m1.offset m1.decay p cs m1.num_updates)
        es.2 (decide (0 < p)),
      other := ⟨fun _ _ => 0, 0⟩, dirty := false, reallen := reallen,
      ctr := ctr2, perwordbound := pw, per_updated := pu,
      ilog := st.ilog ++ [(m1.num_updates, rhoOf nf.powf m1.offset m1.decay p cs m1.num_updates)] }
  else
    { m := m1, other := es.2, dirty := true, reallen := reallen,
      ctr := ctr2, perwordbound := pw, per_updated := pu, ilog := st.ilog }

/-- The chunk loop: fold `processChunk` over the enumerated chunks. -/
def chunkFold [FloorRing α] (nf : Numerics α K) (rng : ℕ → Fin K → α)
    (p cs lencorpus : ℕ) :
    List (List (Doc α W)) → ℕ → ChunkSt α K W → ChunkSt α K W
  | [], _, st => st
  | c :: rest, idx, st =>
    chunkFold nf rng p cs lencorpus rest (idx + 1)
      (processChunk nf rng p cs lencorpus idx c st)

/-- The trailing `if dirty:` M-step after the chunk loop. -/
def flushDirty [FloorRing α] (nf : Numerics α K) (p cs : ℕ)
    (st : ChunkSt α K W) : LdaModel α K W × List (α × α) :=
  if st.dirty then
    (do_mstep nf st.m (rhoOf nf.powf st.m.offset st.m.decay p cs st.m.num_updates)
        st.other (decide (0 < p)),
     st.ilog ++ [(st.m.num_updates,
        rhoOf nf.powf st.m.offset st.m.decay p cs st.m.num_updates)])
  else (st.m, st.ilog)

/-- The bound-iteration loop of one pass: reset `num_updates` to the
pass-start value on every iteration after the first, run the chunk
loop, flush, and stop early when the relative bound improvement falls
below the threshold (only when a fresh bound is available).  Returns
the per-iteration M-step logs of the executed iterations. -/
def boundIterLoop [FloorRing α] (nf : Numerics α K) (rng : ℕ → Fin K → α)
    (p cs lencorpus : ℕ) (chunks : List (List (Doc α W))) (nuStart : α) :
    ℕ → ℕ → α → LdaModel α K W → ℕ →
      Except String (LdaModel α K W × ℕ × List (List (α × α)))
  | 0, _, _, m, ctr => .ok (m, ctr, [])
  | Nat.succ fuel, b, last, m, ctr =>
    let m0 := if 0 < b then { m with num_updates := nuStart } else m
    let st := chunkFold nf rng p cs lencorpus chunks 0
      ⟨m0, ⟨fun _ _ => 0, 0⟩, false, 0, ctr, 0, false, []⟩
    if st.reallen ≠ lencorpus then
      .error "input corpus size changed during training"
    else
      let fl := flushDirty nf p cs st
      if st.per_updated then
        if (last - st.perwordbound) / last < fl.1.bound_improvement_threshold then
          .ok (fl.1, st.ctr, [fl.2])
        else
          match boundIterLoop nf rng p cs lencorpus chunks nuStart fuel (b + 1)
              st.perwordbound fl.1 st.ctr with
          | .error e => .error e
          | .ok (m2, c2, ls) => .ok (m2, c2, fl.2 :: ls)
      else
        match boundIterLoop nf rng p cs lencorpus chunks nuStart fuel (b + 1)
            last fl.1 st.ctr with
        | .error e => .error e
        | .ok (m2, c2, ls) => .ok (m2, c2, fl.2 :: ls)

/-- The pass loop: capture the pass-start `num_updates`, run the
bound-iteration loop with `last_perwordbound = 1e99`, recurse. -/
def passLoop [FloorRing α] (nf : Numerics α K) (rng : ℕ → Fin K → α)
    (cs lencorpus : ℕ) (chunks : List (List (Doc α W))) :
    ℕ → ℕ → LdaModel α K W → ℕ →
      Except String (LdaModel α K W × ℕ × List (List (List (α × α))))
  | 0, _, m, ctr => .ok (m, ctr, [])
  | Nat.succ fuel, p, m, ctr =>
    match boundIterLoop nf rng p cs lencorpus chunks m.num_updates
        m.max_bound_iterations 0 ((10 : α) ^ (99 : ℕ)) m ctr with
    | .error e => .error e
    | .ok (m1, c1, ils) =>
      match passLoop nf rng cs lencorpus chunks fuel (p + 1) m1 c1 with
      | .error e => .error e
      | .ok (m2, c2, ls) => .ok (m2, c2, ils :: ls)

/-- `update(corpus)` (serial, no per-call overrides: the call-time
defaults come from the constructor attributes carried by the model).
An empty corpus returns immediately; then
`chunksize = min(lencorpus, self.chunksize)`,
`state.numdocs += lencorpus`, the three configuration checks in source
order, and the pass loop.  The result carries the final model, the
RNG draw counter and the ghost M-step logs (per pass, per executed
bound-iteration). -/
def update [FloorRing α] (nf : Numerics α K) (rng : ℕ → Fin K → α)
    (m : LdaModel α K W) (corpus : List (Doc α W)) :
    Except String (LdaModel α K W × ℕ × List (List (List (α × α)))) :=
  let lencorpus := corpus.length
  if lencorpus = 0 then .ok (m, 0, [])
  else
    let cs := min lencorpus m.chunksize
    let m1 := { m with
      state := { m.state with numdocs := m.state.numdocs + (lencorpus : α) } }
    if m1.update_every ≠ 0 ∧ 1 < m1.max_bound_iterations then
      .error "It doesnt make sense to use max_bound_iterations in online mode."
    else if m1.max_bound_iterations < 1 then
      .error "max_bound_iterations must be at least 1."
    else if 1 < m1.max_bound_iterations ∧ ¬ 0 < m1.eval_every.getD 0 then
      .error "eval_every must be set (usually to 1) for max_bound_iterations gt 1"
    else
      passLoop nf rng cs lencorpus (grouper cs corpus) m1.passes 0 m1 0

/-- Whether an `Except` result is an error. -/
def isError {ε β : Type} : Except ε β → Bool
  | .error _ => true
  | .ok _ => false

/-- The ghost M-step logs of an `update` result (empty on error). -/
def logsOf :
    Except String (LdaModel α K W × ℕ × List (List (List (α × α)))) →
      List (List (List (α × α)))
  | .error _ => []
  | .ok r => r.2.2

/-- The configuration fields of the model that the orchestrator control
flow reads and that no callee modifies. -/
def cfg (m : LdaModel α K W) :
    ℤ × ℕ × α × α × Option ℤ × Bool × Bool × ℕ × α × ℕ × ℕ :=
  (m.update_every, m.numworkers, m.offset, m.decay, m.eval_every,
   m.optimize_alpha, m.optimize_eta, m.max_bound_iterations,
   m.bound_improvement_threshold, m.chunksize, m.passes)

theorem cfg_update_alpha (nf : Numerics α K) (m : LdaModel α K W)
    (g : List (Fin K → α)) (r : α) : cfg (update_alpha nf m g r).1 = cfg m := by
  simp only [update_alpha]
  split <;> rfl

theorem nu_update_alpha (nf : Numerics α K) (m : LdaModel α K W)
    (g : List (Fin K → α)) (r : α) :
    (update_alpha nf m g r).1.num_updates = m.num_updates := by
  simp only [update_alpha]
  split <;> rfl

theorem cfg_update_eta (nf : Numerics α K) (m : LdaModel α K W)
    (l : Fin K → Fin W → α) (r : α) : cfg (update_eta nf m l r).1 = cfg m := by
  simp only [update_eta]
  split <;> rfl

theorem nu_update_eta (nf : Numerics α K) (m : LdaModel α K W)
    (l : Fin K → Fin W → α) (r : α) :
    (update_eta nf m l r).1.num_updates = m.num_updates := by
  simp only [update_eta]
  split <;> rfl

theorem cfg_do_mstep (nf : Numerics α K) (m : LdaModel α K W) (r : α)
    (o : LdaState α K W) (e : Bool) : cfg (do_mstep nf m r o e) = cfg m := by
  unfold do_mstep
  have h3 : ∀ m2 : LdaModel α K W,
      cfg (if m2.optimize_eta then
          (update_eta nf m2 (m2.state.get_lambda m2.eta) r).1 else m2) = cfg m2 := by
    intro m2
    split
    · exact cfg_update_eta nf m2 _ r
    · rfl
  cases e
  · simpa using h3 (sync_state nf { m with state := LdaState.blend r m.state o none })
  · simpa using h3 (sync_state nf { m with state := LdaState.blend r m.state o none })

theorem nu_do_mstep (nf : Numerics α K) (m : LdaModel α K W) (r : α)
    (o : LdaState α K W) (e : Bool) :
    (do_mstep nf m r o e).num_updates
      = if e then m.num_updates else m.num_updates + o.numdocs := by
  unfold do_mstep
  have h3 : ∀ m2 : LdaModel α K W,
      (if m2.optimize_eta then
          (update_eta nf m2 (m2.state.get_lambda m2.eta) r).1 else m2).num_updates
        = m2.num_updates := by
    intro m2
    split
    · exact nu_update_eta nf m2 _ r
    · rfl
  cases e
  · simpa using h3 (sync_state nf { m with state := LdaState.blend r m.state o none })
  · simpa using h3 (sync_state nf { m with state := LdaState.blend r m.state o none })

theorem numdocs_do_estep (nf : Numerics α K) (m : LdaModel α K W)
    (chunk : List (Doc α W)) (rng : ℕ → Fin K → α) (start : ℕ)
    (other : LdaState α K W) :
    (do_estep nf m chunk rng start other).2.numdocs
      = other.numdocs + (chunk.length : α) := by
  simp [do_estep, inference]

/-- The bookkeeping fragment of the chunk-loop state: everything that
determines the M-step schedule and its `(num_updates, rho)` log. -/
structure BookSt (α : Type) where
  nu : α
  od : α
  dirty : Bool
  reallen : ℕ
  ilog : List (α × α)

/-- Project the chunk-loop state onto its bookkeeping fragment. -/
def book (st : ChunkSt α K W) : BookSt α :=
  ⟨st.m.num_updates, st.other.numdocs, st.dirty, st.reallen, st.ilog⟩

/-- The bookkeeping effect of one chunk: it depends only on the chunk
LENGTH, the loop indices, and the (constant) schedule configuration —
not on any numeric content of the model. -/
def bookStep [FloorRing α] (powf : α → α → α) (off dec : α) (ue : ℤ) (nw : ℕ)
    (p cs : ℕ) (idx len : ℕ) (b : BookSt α) : BookSt α :=
  if decide (ue ≠ 0) && decide (((idx : ℤ) + 1) % (ue * (nw : ℤ)) = 0) then
    ⟨if decide (0 < p) then b.nu else b.nu + (b.od + (len : α)), 0, false,
     b.reallen + len,
     b.ilog ++ [(b.nu, rhoOf powf off dec p cs b.nu)]⟩
  else ⟨b.nu, b.od + (len : α), true, b.reallen + len, b.ilog⟩

/-- Fold of `bookStep` over the chunk lengths. -/
def bookFold [FloorRing α] (powf : α → α → α) (off dec : α) (ue : ℤ) (nw : ℕ)
    (p cs : ℕ) : List ℕ → ℕ → BookSt α → BookSt α
  | [], _, b => b
  | len :: rest, idx, b =>
    bookFold powf off dec ue nw p cs rest (idx + 1)
      (bookStep powf off dec ue nw p cs idx len b)

theorem alphaPass_cfg [FloorRing α] (nf : Numerics α K) (p cs : ℕ)
    (g : List (Fin K → α)) (m : LdaModel α K W) :
    cfg (alphaPass nf p cs g m) = cfg m := by
  unfold alphaPass
  split
  · exact cfg_update_alpha nf m _ _
  · rfl

theorem alphaPass_nu [FloorRing α] (nf : Numerics α K) (p cs : ℕ)
    (g : List (Fin K → α)) (m : LdaModel α K W) :
    (alphaPass nf p cs g m).num_updates = m.num_updates := by
  unfold alphaPass
  split
  · exact nu_update_alpha nf m _ _
  · rfl

theorem alphaPass_offset [FloorRing α] (nf : Numerics α K) (p cs : ℕ)
    (g : List (Fin K → α)) (m : LdaModel α K W) :
    (alphaPass nf p cs g m).offset = m.offset :=
  congrArg (fun t => t.2.2.1) (alphaPass_cfg nf p cs g m)

theorem alphaPass_decay [FloorRing α] (nf : Numerics α K) (p cs : ℕ)
    (g : List (Fin K → α)) (m : LdaModel α K W) :
    (alphaPass nf p cs g m).decay = m.decay :=
  congrArg (fun t => t.2.2.2.1) (alphaPass_cfg nf p cs g m)

theorem processChunk_book [FloorRing α] (nf : Numerics α K)
    (rng : ℕ → Fin K → α) (p cs lencorpus idx : ℕ) (chunk : List (Doc α W))
    (st : ChunkSt α K W) :
    book (processChunk nf rng p cs lencorpus idx chunk st)
        = bookStep nf.powf st.m.offset st.m.decay st.m.update_every
            st.m.numworkers p cs idx chunk.length (book st)
      ∧ cfg (processChunk nf rng p cs lencorpus idx chunk st).m = cfg st.m := by
  by_cases hms : (decide (st.m.update_every ≠ 0)
      && decide (((idx : ℤ) + 1) % (st.m.update_every * (st.m.numworkers : ℤ)) = 0)) = true
  · constructor
    · simp only [processChunk, bookStep, book, hms, if_true, BookSt.mk.injEq,
        and_true, true_and]
      constructor
      · rw [nu_do_mstep, alphaPass_nu, numdocs_do_estep]
      · rw [alphaPass_nu, alphaPass_offset, alphaPass_decay]
    · simp only [processChunk, hms, if_true]
      rw [cfg_do_mstep, alphaPass_cfg]
  · rw [Bool.not_eq_true] at hms
    constructor
    · simp only [processChunk, bookStep, book, hms, Bool.false_eq_true, if_false,
        BookSt.mk.injEq, and_true, true_and]
      exact ⟨alphaPass_nu nf p cs _ st.m,
        numdocs_do_estep nf st.m chunk rng _ st.other⟩
    · simp only [processChunk, hms, Bool.false_eq_true, if_false]
      exact alphaPass_cfg nf p cs _ st.m

theorem chunkFold_book [FloorRing α] (nf : Numerics α K)
    (rng : ℕ → Fin K → α) (p cs lencorpus : ℕ) :
    ∀ (chunks : List (List (Doc α W))) (idx : ℕ) (st : ChunkSt α K W),
      book (chunkFold nf rng p cs lencorpus chunks idx st)
          = bookFold nf.powf st.m.offset st.m.decay st.m.update_every
              st.m.numworkers p cs (chunks.map List.length) idx (book st)
        ∧ cfg (chunkFold nf rng p cs lencorpus chunks idx st).m = cfg st.m := by
  intro chunks
  induction chunks with
  | nil => exact fun idx st => ⟨rfl, rfl⟩
  | cons c rest ih =>
    intro idx st
    obtain ⟨h1, h2⟩ := processChunk_book nf rng p cs lencorpus idx c st
    obtain ⟨h3, h4⟩ := ih (idx + 1) (processChunk nf rng p cs lencorpus idx c st)
    have hoff : (processChunk nf rng p cs lencorpus idx c st).m.offset = st.m.offset :=
      congrArg (fun t => t.2.2.1) h2
    have hdec : (processChunk nf rng p cs lencorpus idx c st).m.decay = st.m.decay :=
      congrArg (fun t => t.2.2.2.1) h2
    have hue : (processChunk nf rng p cs lencorpus idx c st).m.update_every
        = st.m.update_every := congrArg (fun t => t.1) h2
    have hnw : (processChunk nf rng p cs lencorpus idx c st).m.numworkers
        = st.m.numworkers := congrArg (fun t => t.2.1) h2
    refine ⟨?_, h4.trans h2⟩
    show book (chunkFold nf rng p cs lencorpus rest (idx + 1)
        (processChunk nf rng p cs lencorpus idx c st))
      = bookFold nf.powf st.m.offset st.m.decay st.m.update_every st.m.numworkers
          p cs (c.length :: rest.map List.length) idx (book st)
    rw [h3, hoff, hdec, hue, hnw, h1]
    rfl

theorem bookStep_reallen [FloorRing α] (powf : α → α → α) (off dec : α)
    (ue : ℤ) (nw p cs idx len : ℕ) (b : BookSt α) :
    (bookStep powf off dec ue nw p cs idx len b).reallen = b.reallen + len := by
  unfold bookStep
  split <;> rfl

theorem bookFold_reallen [FloorRing α] (powf : α → α → α) (off dec : α)
    (ue : ℤ) (nw p cs : ℕ) :
    ∀ (lens : List ℕ) (idx : ℕ) (b : BookSt α),
      (bookFold powf off dec ue nw p cs lens idx b).reallen
        = b.reallen + lens.sum := by
  intro lens
  induction lens with
  | nil => intro idx b; simp [bookFold]
  | cons len rest ih =>
    intro idx b
    show (bookFold powf off dec ue nw p cs rest (idx + 1)
        (bookStep powf off dec ue nw p cs idx len b)).reallen = _
    rw [ih, bookStep_reallen]
    simp [List.sum_cons]
    omega

theorem grouperAux_sum {δ : Type} (n : ℕ) (hn : 1 ≤ n) :
    ∀ (fuel : ℕ) (l : List δ), l.length ≤ fuel →
      ((grouperAux n fuel l).map List.length).sum = l.length := by
  intro fuel
  induction fuel with
  | zero =>
    intro l hl
    have : l = [] := List.eq_nil_of_length_eq_zero (Nat.le_zero.mp hl)
    subst this
    rfl
  | succ f ih =>
    intro l hl
    cases l with
    | nil => rfl
    | cons x xs =>
      show (((x :: xs).take n :: grouperAux n f ((x :: xs).drop n)).map
        List.length).sum = (x :: xs).length
      have hdrop : ((x :: xs).drop n).length ≤ f := by
        rw [List.length_drop]
        simp only [List.length_cons] at hl ⊢
        omega
      rw [List.map_cons, List.sum_cons, ih _ hdrop]
      rw [List.length_take, List.length_drop]
      simp only [List.length_cons]
      omega

theorem grouper_sum {δ : Type} (n : ℕ) (hn : 1 ≤ n) (l : List δ) :
    ((grouper n l).map List.length).sum = l.length :=
  grouperAux_sum n hn l.length l le_rfl

theorem boundIterLoop_ok [FloorRing α] (nf : Numerics α K)
    (rng : ℕ → Fin K → α) (p cs lencorpus : ℕ)
    (chunks : List (List (Doc α W))) (nuStart : α)
    (hsum : (chunks.map List.length).sum = lencorpus) :
    ∀ (fuel b : ℕ) (last : α) (m : LdaModel α K W) (ctr : ℕ),
      ∃ r, boundIterLoop nf rng p cs lencorpus chunks nuStart fuel b last m ctr
        = .ok r := by
  intro fuel
  induction fuel with
  | zero => exact fun b last m ctr => ⟨_, rfl⟩
  | succ f ih =>
    intro b last m ctr
    simp only [boundIterLoop]
    set m0 := if 0 < b then { m with num_updates := nuStart } else m with hm0
    set st := chunkFold nf rng p cs lencorpus chunks 0
      ⟨m0, ⟨fun _ _ => 0, 0⟩, false, 0, ctr, 0, false, []⟩ with hst
    have hreal : st.reallen = lencorpus := by
      have h := (chunkFold_book nf rng p cs lencorpus chunks 0
        ⟨m0, ⟨fun _ _ => 0, 0⟩, false, 0, ctr, 0, false, []⟩).1
      have h2 : st.reallen = (book st).reallen := rfl
      rw [h2, hst, h, bookFold_reallen]
      simpa [book] using hsum
    rw [if_neg (not_not_intro hreal)]
    set fl := flushDirty nf p cs st with hfl
    obtain ⟨⟨m2, c2, ls2⟩, hr1⟩ := ih (b + 1) st.perwordbound fl.1 st.ctr
    obtain ⟨⟨m3, c3, ls3⟩, hr2⟩ := ih (b + 1) last fl.1 st.ctr
    by_cases hpu : st.per_updated = true
    · rw [if_pos hpu]
      by_cases hbr : (last - st.perwordbound) / last
          < fl.1.bound_improvement_threshold
      · rw [if_pos hbr]
        exact ⟨_, rfl⟩
      · rw [if_neg hbr, hr1]
        exact ⟨_, rfl⟩
    · rw [if_neg hpu, hr2]
      exact ⟨_, rfl⟩

theorem passLoop_ok [FloorRing α] (nf : Numerics α K) (rng : ℕ → Fin K → α)
    (cs lencorpus : ℕ) (chunks : List (List (Doc α W)))
    (hsum : (chunks.map List.length).sum = lencorpus) :
    ∀ (fuel p : ℕ) (m : LdaModel α K W) (ctr : ℕ),
      ∃ r, passLoop nf rng cs lencorpus chunks fuel p m ctr = .ok r := by
  intro fuel
  induction fuel with
  | zero => exact fun p m ctr => ⟨_, rfl⟩
  | succ f ih =>
    intro p m ctr
    obtain ⟨⟨m1, c1, ils⟩, h1⟩ := boundIterLoop_ok nf rng p cs lencorpus chunks
      m.num_updates hsum m.max_bound_iterations 0 ((10 : α) ^ (99 : ℕ)) m ctr
    obtain ⟨⟨m2, c2, ls⟩, h2⟩ := ih (p + 1) m1 c1
    refine ⟨(m2, c2, ils :: ls), ?_⟩
    simp only [passLoop, h1, h2]

/-- The error condition of claim C8 exactly as worded: reject when
`maxBoundIterations < 1`, or `maxBoundIterations > 1` with
`updateEvery > 0`, or `maxBoundIterations > 1` with `evalEvery` not
positive. -/
def origConds (m : LdaModel α K W) : Prop :=
  m.max_bound_iterations < 1
    ∨ (1 < m.max_bound_iterations ∧ 0 < m.update_every)
    ∨ (1 < m.max_bound_iterations ∧ ¬ 0 < m.eval_every.getD 0)

/-- C8 (amended): for a positive constructor `chunksize`, a call on a
NONEMPTY corpus raises a configuration error (before any E-step or
M-step, all three checks precede the loops) exactly when
`maxBoundIterations < 1`, or `maxBoundIterations > 1` together with
`updateEvery` NONZERO (python truthiness, not `> 0`), or
`maxBoundIterations > 1` with `evalEvery` not positive; a call on an
EMPTY corpus returns immediately with no error even when those
conditions hold. -/
theorem c8_update_errors_amended [FloorRing α] :
    ∀ (nf : Numerics α K) (rng : ℕ → Fin K → α) (m : LdaModel α K W)
      (corpus : List (Doc α W)),
      1 ≤ m.chunksize →
      (corpus = [] → update nf rng m corpus = .ok (m, 0, []))
        ∧ (corpus ≠ [] →
            (isError (update nf rng m corpus) = true
              ↔ (m.max_bound_iterations < 1
                  ∨ (1 < m.max_bound_iterations ∧ m.update_every ≠ 0)
                  ∨ (1 < m.max_bound_iterations ∧ ¬ 0 < m.eval_every.getD 0)))) := by
  intro nf rng m corpus hcs
  constructor
  · intro h
    subst h
    rfl
  · intro hne
    have hlen : ¬ corpus.length = 0 := by
      simpa [List.length_eq_zero] using hne
    unfold update
    rw [if_neg hlen]
    by_cases h1 : m.update_every ≠ 0 ∧ 1 < m.max_bound_iterations
    · rw [if_pos h1]
      simp only [isError]
      exact iff_of_true trivial (Or.inr (Or.inl ⟨h1.2, h1.1⟩))
    · rw [if_neg h1]
      by_cases h2 : m.max_bound_iterations < 1
      · rw [if_pos h2]
        simp only [isError]
        exact iff_of_true trivial (Or.inl h2)
      · rw [if_neg h2]
        by_cases h3 : 1 < m.max_bound_iterations ∧ ¬ 0 < m.eval_every.getD 0
        · rw [if_pos h3]
          simp only [isError]
          exact iff_of_true trivial (Or.inr (Or.inr h3))
        · rw [if_neg h3]
          have hcs1 : 1 ≤ min corpus.length m.chunksize :=
            le_min (Nat.pos_of_ne_zero hlen) hcs
          obtain ⟨⟨m2, c2, ls⟩, hr⟩ := passLoop_ok nf rng
            (min corpus.length m.chunksize) corpus.length
            (grouper (min corpus.length m.chunksize) corpus)
            (grouper_sum _ hcs1 corpus) m.passes 0
            { m with state := { m.state with
                numdocs := m.state.numdocs + (corpus.length : α) } } 0
          rw [hr]
          simp only [isError]
          refine iff_of_false (by simp) ?_
          rintro (ha | ⟨hb, hc⟩ | hd)
          · exact h2 ha
          · exact h1 ⟨hc, hb⟩
          · exact h3 hd

/-- C8 witness: the amended theorem at the concrete model (positive
chunksize, singleton corpus). -/
theorem c8_update_errors_witness :
    (1 ≤ modelQ.chunksize ∧ ([[((0 : Fin 1), (1 : ℚ))]] : List (Doc ℚ 1)) ≠ [])
      ∧ (isError (update nfQ rngQ modelQ [[((0 : Fin 1), (1 : ℚ))]]) = true
          ↔ (modelQ.max_bound_iterations < 1
              ∨ (1 < modelQ.max_bound_iterations ∧ modelQ.update_every ≠ 0)
              ∨ (1 < modelQ.max_bound_iterations ∧ ¬ 0 < modelQ.eval_every.getD 0))) := by
  have hcs : 1 ≤ modelQ.chunksize := by norm_num [modelQ]
  have hne : ([[((0 : Fin 1), (1 : ℚ))]] : List (Doc ℚ 1)) ≠ [] := by simp
  exact ⟨⟨hcs, hne⟩,
    (c8_update_errors_amended nfQ rngQ modelQ [[((0 : Fin 1), (1 : ℚ))]] hcs).2 hne⟩

/-- C8 (counterexample): the claim-worded condition is wrong on two
sides.  (a) On an EMPTY corpus `update` returns before the checks, so
no error is raised even though `maxBoundIterations = 0 < 1` — the
claimed "exactly when" fails.  (b) With `updateEvery = -1` (truthy in
python but not `> 0`) and `maxBoundIterations = 2`,
`evalEvery = 1`, the source raises the online-mode error although none
of the claimed conditions holds. -/
theorem c8_update_errors_cex :
    (¬ (isError (update nfQ rngQ { modelQ with max_bound_iterations := 0 }
          ([] : List (Doc ℚ 1))) = true
        ↔ origConds { modelQ with max_bound_iterations := 0 }))
      ∧ isError (update nfQ rngQ
          { modelQ with
            max_bound_iterations := 2
            update_every := -1
            eval_every := some 1 } [[((0 : Fin 1), (1 : ℚ))]]) = true
      ∧ ¬ origConds
          { modelQ with
            max_bound_iterations := 2
            update_every := -1
            eval_every := some 1 } := by
  refine ⟨?_, by decide, ?_⟩
  · intro h
    have hconds : origConds { modelQ with max_bound_iterations := 0 } :=
      Or.inl (by decide)
    have := h.mpr hconds
    simp [update, isError] at this
  · unfold origConds
    decide

/-- The M-step `(num_updates, rho)` log of one executed bound-iteration
as a pure function of the pass index, the pass-start counter and the
chunk LENGTHS — the heart of claim C6: nothing else influences it. -/
def fullIterLog [FloorRing α] (powf : α → α → α) (off dec : α) (ue : ℤ)
    (nw p cs : ℕ) (lens : List ℕ) (nuStart : α) : List (α × α) :=
  let b := bookFold powf off dec ue nw p cs lens 0 ⟨nuStart, 0, false, 0, []⟩
  b.ilog ++ (if b.dirty then [(b.nu, rhoOf powf off dec p cs b.nu)] else [])

theorem flushDirty_book [FloorRing α] (nf : Numerics α K) (p cs : ℕ)
    (st : ChunkSt α K W) :
    (flushDirty nf p cs st).2
        = (book st).ilog ++ (if (book st).dirty then
            [((book st).nu,
              rhoOf nf.powf st.m.offset st.m.decay p cs (book st).nu)] else [])
      ∧ cfg (flushDirty nf p cs st).1 = cfg st.m := by
  constructor
  · by_cases h : st.dirty = true
    · simp only [flushDirty, book, h, if_true]
    · have h' : st.dirty = false := by
        revert h
        cases st.dirty <;> simp
      simp only [flushDirty, book, h', Bool.false_eq_true, if_false,
        List.append_nil]
  · unfold flushDirty
    split
    · exact cfg_do_mstep nf st.m _ _ _
    · rfl

theorem boundIterLoop_logs [FloorRing α] (nf : Numerics α K)
    (rng : ℕ → Fin K → α) (p cs lencorpus : ℕ)
    (chunks : List (List (Doc α W))) (nuStart : α) (M0 : LdaModel α K W) :
    ∀ (fuel b : ℕ) (last : α) (m : LdaModel α K W) (ctr : ℕ)
      (m2 : LdaModel α K W) (c2 : ℕ) (ls : List (List (α × α))),
      cfg m = cfg M0 →
      (b = 0 → m.num_updates = nuStart) →
      boundIterLoop nf rng p cs lencorpus chunks nuStart fuel b last m ctr
        = .ok (m2, c2, ls) →
      (∀ il ∈ ls, il = fullIterLog nf.powf M0.offset M0.decay M0.update_every
          M0.numworkers p cs (chunks.map List.length) nuStart)
        ∧ cfg m2 = cfg M0 := by
  intro fuel
  induction fuel with
  | zero =>
    intro b last m ctr m2 c2 ls hcfg hb0 hok
    simp only [boundIterLoop, Except.ok.injEq, Prod.mk.injEq] at hok
    obtain ⟨h1, h2, h3⟩ := hok
    subst h1
    subst h3
    exact ⟨by simp, hcfg⟩
  | succ f ih =>
    intro b last m ctr m2 c2 ls hcfg hb0 hok
    simp only [boundIterLoop] at hok
    set m0 := if 0 < b then { m with num_updates := nuStart } else m with hm0
    have hm0nu : m0.num_updates = nuStart := by
      rw [hm0]
      by_cases hb : 0 < b
      · simp [hb]
      · simp only [hb, if_false]
        exact hb0 (by omega)
    have hm0cfg : cfg m0 = cfg M0 := by
      rw [hm0]
      by_cases hb : 0 < b
      · simpa [hb] using hcfg
      · simpa [hb] using hcfg
    set st := chunkFold nf rng p cs lencorpus chunks 0
      ⟨m0, ⟨fun _ _ => 0, 0⟩, false, 0, ctr, 0, false, []⟩ with hst
    have hcb := chunkFold_book nf rng p cs lencorpus chunks 0
      ⟨m0, ⟨fun _ _ => 0, 0⟩, false, 0, ctr, 0, false, []⟩
    have hcfgst : cfg st.m = cfg M0 := by
      rw [hst]
      exact hcb.2.trans hm0cfg
    have hoffst : st.m.offset = M0.offset := congrArg (fun t => t.2.2.1) hcfgst
    have hdecst : st.m.decay = M0.decay := congrArg (fun t => t.2.2.2.1) hcfgst
    have hoff0 : m0.offset = M0.offset := congrArg (fun t => t.2.2.1) hm0cfg
    have hdec0 : m0.decay = M0.decay := congrArg (fun t => t.2.2.2.1) hm0cfg
    have hue0 : m0.update_every = M0.update_every := congrArg (fun t => t.1) hm0cfg
    have hnw0 : m0.numworkers = M0.numworkers := congrArg (fun t => t.2.1) hm0cfg
    have hbookst : book st = bookFold nf.powf M0.offset M0.decay M0.update_every
        M0.numworkers p cs (chunks.map List.length) 0 ⟨nuStart, 0, false, 0, []⟩ := by
      rw [hst]
      have h := hcb.1
      rw [hoff0, hdec0, hue0, hnw0] at h
      rw [h]
      have hb0' : (book (⟨m0, ⟨fun _ _ => 0, 0⟩, false, 0, ctr, 0, false, []⟩ :
          ChunkSt α K W)) = ⟨nuStart, 0, false, 0, []⟩ := by
        simp [book, hm0nu]
      rw [hb0']
    have hflb := flushDirty_book nf p cs st
    have heq : (flushDirty nf p cs st).2
        = fullIterLog nf.powf M0.offset M0.decay M0.update_every M0.numworkers
            p cs (chunks.map List.length) nuStart := by
      rw [hflb.1, hoffst, hdecst, hbookst]
      rfl
    have hflcfg : cfg (flushDirty nf p cs st).1 = cfg M0 := hflb.2.trans hcfgst
    by_cases hre : st.reallen ≠ lencorpus
    · rw [if_pos hre] at hok
      cases hok
    · rw [if_neg hre] at hok
      by_cases hpu : st.per_updated = true
      · rw [if_pos hpu] at hok
        by_cases hbr : (last - st.perwordbound) / last
            < (flushDirty nf p cs st).1.bound_improvement_threshold
        · rw [if_pos hbr] at hok
          simp only [Except.ok.injEq, Prod.mk.injEq] at hok
          obtain ⟨h1, h2, h3⟩ := hok
          subst h1
          subst h3
          refine ⟨?_, hflcfg⟩
          intro il hil
          simp only [List.mem_singleton] at hil
          subst hil
          exact heq
        · rw [if_neg hbr] at hok
          cases hrec : boundIterLoop nf rng p cs lencorpus chunks nuStart f
              (b + 1) st.perwordbound (flushDirty nf p cs st).1 st.ctr with
          | error e =>
            rw [hrec] at hok
            cases hok
          | ok r =>
            obtain ⟨mr, cr, lr⟩ := r
            rw [hrec] at hok
            simp only [Except.ok.injEq, Prod.mk.injEq] at hok
            obtain ⟨h1, h2, h3⟩ := hok
            subst h1
            subst h3
            obtain ⟨hmem, hcfg2⟩ := ih (b + 1) st.perwordbound
              (flushDirty nf p cs st).1 st.ctr mr cr lr hflcfg
              (fun h => absurd h (Nat.succ_ne_zero b)) hrec
            refine ⟨?_, hcfg2⟩
            intro il hil
            rcases List.mem_cons.mp hil with h | h
            · subst h
              exact heq
            · exact hmem il h
      · rw [if_neg hpu] at hok
        cases hrec : boundIterLoop nf rng p cs lencorpus chunks nuStart f
            (b + 1) last (flushDirty nf p cs st).1 st.ctr with
        | error e =>
          rw [hrec] at hok
          cases hok
        | ok r =>
          obtain ⟨mr, cr, lr⟩ := r
          rw [hrec] at hok
          simp only [Except.ok.injEq, Prod.mk.injEq] at hok
          obtain ⟨h1, h2, h3⟩ := hok
          subst h1
          subst h3
          obtain ⟨hmem, hcfg2⟩ := ih (b + 1) last
            (flushDirty nf p cs st).1 st.ctr mr cr lr hflcfg
            (fun h => absurd h (Nat.succ_ne_zero b)) hrec
          refine ⟨?_, hcfg2⟩
          intro il hil
          rcases List.mem_cons.mp hil with h | h
          · subst h
            exact heq
          · exact hmem il h

theorem passLoop_logs [FloorRing α] (nf : Numerics α K) (rng : ℕ → Fin K → α)
    (cs lencorpus : ℕ) (chunks : List (List (Doc α W)))
    (M0 : LdaModel α K W) :
    ∀ (fuel p : ℕ) (m : LdaModel α K W) (ctr : ℕ) (m2 : LdaModel α K W)
      (c2 : ℕ) (ls : List (List (List (α × α)))),
      cfg m = cfg M0 →
      passLoop nf rng cs lencorpus chunks fuel p m ctr = .ok (m2, c2, ls) →
      (∀ (pi : ℕ) (hpi : pi < ls.length), ∃ nu0, ∀ il ∈ ls.get ⟨pi, hpi⟩,
          il = fullIterLog nf.powf M0.offset M0.decay M0.update_every
            M0.numworkers (p + pi) cs (chunks.map List.length) nu0)
        ∧ cfg m2 = cfg M0 := by
  intro fuel
  induction fuel with
  | zero =>
    intro p m ctr m2 c2 ls hcfg hok
    simp only [passLoop, Except.ok.injEq, Prod.mk.injEq] at hok
    obtain ⟨h1, h2, h3⟩ := hok
    subst h1
    subst h3
    refine ⟨?_, hcfg⟩
    intro pi hpi
    exact absurd hpi (by simp)
  | succ f ih =>
    intro p m ctr m2 c2 ls hcfg hok
    simp only [passLoop] at hok
    cases hb : boundIterLoop nf rng p cs lencorpus chunks m.num_updates
        m.max_bound_iterations 0 ((10 : α) ^ (99 : ℕ)) m ctr with
    | error e =>
      rw [hb] at hok
      cases hok
    | ok r =>
      obtain ⟨m1, c1, ils⟩ := r
      simp only [hb] at hok
      cases hp : passLoop nf rng cs lencorpus chunks f (p + 1) m1 c1 with
      | error e =>
        simp only [hp] at hok
        cases hok
      | ok r2 =>
        obtain ⟨mp, cp, lp⟩ := r2
        simp only [hp, Except.ok.injEq, Prod.mk.injEq] at hok
        obtain ⟨h1, h2, h3⟩ := hok
        subst h1
        subst h3
        obtain ⟨hils, hcfg1⟩ := boundIterLoop_logs nf rng p cs lencorpus chunks
          m.num_updates M0 m.max_bound_iterations 0 ((10 : α) ^ (99 : ℕ)) m ctr
          m1 c1 ils hcfg (fun _ => rfl) hb
        obtain ⟨hlp, hcfg2⟩ := ih (p + 1) m1 c1 mp cp lp hcfg1 hp
        refine ⟨?_, hcfg2⟩
        intro pi hpi
        cases pi with
        | zero =>
          refine ⟨m.num_updates, ?_⟩
          intro il hil
          have : (ils :: lp).get ⟨0, hpi⟩ = ils := rfl
          rw [this] at hil
          simpa using hils il hil
        | succ pj =>
          have hpj : pj < lp.length := by
            simpa using hpi
          obtain ⟨nu0, hnu0⟩ := hlp pj hpj
          refine ⟨nu0, ?_⟩
          intro il hil
          have : (ils :: lp).get ⟨pj + 1, hpi⟩ = lp.get ⟨pj, hpj⟩ := rfl
          rw [this] at hil
          have hpp : p + 1 + pj = p + (pj + 1) := by omega
          rw [← hpp]
          exact hnu0 il hil

theorem bookStep_entries [FloorRing α] (powf : α → α → α) (off dec : α)
    (ue : ℤ) (nw p cs idx len : ℕ) (b : BookSt α) (P : α × α → Prop)
    (hP : ∀ e ∈ b.ilog, P e)
    (hr : ∀ nu : α, P (nu, rhoOf powf off dec p cs nu)) :
    ∀ e ∈ (bookStep powf off dec ue nw p cs idx len b).ilog, P e := by
  unfold bookStep
  split
  · intro e he
    simp only [List.mem_append, List.mem_singleton] at he
    rcases he with h | h
    · exact hP e h
    · subst h
      exact hr b.nu
  · exact hP

theorem bookFold_entries [FloorRing α] (powf : α → α → α) (off dec : α)
    (ue : ℤ) (nw p cs : ℕ) (P : α × α → Prop)
    (hr : ∀ nu : α, P (nu, rhoOf powf off dec p cs nu)) :
    ∀ (lens : List ℕ) (idx : ℕ) (b : BookSt α), (∀ e ∈ b.ilog, P e) →
      ∀ e ∈ (bookFold powf off dec ue nw p cs lens idx b).ilog, P e := by
  intro lens
  induction lens with
  | nil => exact fun idx b hP => hP
  | cons len rest ih =>
    intro idx b hP
    exact ih (idx + 1) (bookStep powf off dec ue nw p cs idx len b)
      (bookStep_entries powf off dec ue nw p cs idx len b P hP hr)

theorem fullIterLog_entries [FloorRing α] (powf : α → α → α) (off dec : α)
    (ue : ℤ) (nw p cs : ℕ) (lens : List ℕ) (nu0 : α) :
    ∀ e ∈ fullIterLog powf off dec ue nw p cs lens nu0,
      e.2 = rhoOf powf off dec p cs e.1 := by
  intro e he
  unfold fullIterLog at he
  simp only [List.mem_append] at he
  rcases he with h | h
  · exact bookFold_entries powf off dec ue nw p cs
      (fun e => e.2 = rhoOf powf off dec p cs e.1) (fun nu => rfl)
      lens 0 ⟨nu0, 0, false, 0, []⟩ (by simp) e h
  · rcases em ((bookFold powf off dec ue nw p cs lens 0
        ⟨nu0, 0, false, 0, []⟩).dirty = true) with hd | hd
    · rw [if_pos hd] at h
      simp only [List.mem_singleton] at h
      subst h
      rfl
    · rw [if_neg hd] at h
      cases h

/-- C6: at every M-step of `update`, the learning rate passed to
`do_mstep` is `pow(offset + pass + num_updates / chunksize, -decay)`
(with `/` the source python-2 integer division and `num_updates` the
counter at the moment of the call — both recorded in the ghost log);
and because `num_updates` is reset to its pass-start value at the start
of every bound-iteration after the first, any two executed
bound-iterations of the same pass produce identical `(num_updates,
rho)` trajectories. -/
theorem c6_rho_schedule [FloorRing α] :
    ∀ (nf : Numerics α K) (rng : ℕ → Fin K → α) (m : LdaModel α K W)
      (corpus : List (Doc α W)) (p : ℕ) (il1 il2 : List (α × α)),
      il1 ∈ (logsOf (update nf rng m corpus)).getD p [] →
      il2 ∈ (logsOf (update nf rng m corpus)).getD p [] →
      il1 = il2
        ∧ ∀ e ∈ il1, e.2 = rhoOf nf.powf m.offset m.decay p
            (min corpus.length m.chunksize) e.1 := by
  intro nf rng m corpus p il1 il2 h1 h2
  rcases hu : update nf rng m corpus with e | r
  · rw [hu] at h1
    simp [logsOf] at h1
  · obtain ⟨mr, cr, ls⟩ := r
    rw [hu] at h1 h2
    have hls : (logsOf (α := α) (K := K) (W := W) (.ok (mr, cr, ls))) = ls := rfl
    rw [hls] at h1 h2
    unfold update at hu
    by_cases hl : corpus.length = 0
    · rw [if_pos hl] at hu
      simp only [Except.ok.injEq, Prod.mk.injEq] at hu
      obtain ⟨-, -, h3⟩ := hu
      rw [← h3] at h1
      simp at h1
    · rw [if_neg hl] at hu
      by_cases hc1 : m.update_every ≠ 0 ∧ 1 < m.max_bound_iterations
      · rw [if_pos hc1] at hu
        cases hu
      · rw [if_neg hc1] at hu
        by_cases hc2 : m.max_bound_iterations < 1
        · rw [if_pos hc2] at hu
          cases hu
        · rw [if_neg hc2] at hu
          by_cases hc3 : 1 < m.max_bound_iterations ∧ ¬ 0 < m.eval_every.getD 0
          · rw [if_pos hc3] at hu
            cases hu
          · rw [if_neg hc3] at hu
            obtain ⟨hprop, -⟩ := passLoop_logs nf rng
              (min corpus.length m.chunksize) corpus.length
              (grouper (min corpus.length m.chunksize) corpus)
              { m with state := { m.state with
                  numdocs := m.state.numdocs + (corpus.length : α) } }
              ({ m with state := { m.state with
                  numdocs := m.state.numdocs + (corpus.length : α) } }).passes 0
              { m with state := { m.state with
                  numdocs := m.state.numdocs + (corpus.length : α) } } 0
              mr cr ls rfl hu
            by_cases hpl : p < ls.length
            · obtain ⟨nu0, hnu0⟩ := hprop p hpl
              rw [List.getD_eq_get ls [] hpl] at h1 h2
              have e1 := hnu0 il1 h1
              have e2 := hnu0 il2 h2
              rw [Nat.zero_add] at e1 e2
              refine ⟨e1.trans e2.symm, ?_⟩
              rw [e1]
              exact fullIterLog_entries nf.powf m.offset m.decay m.update_every
                m.numworkers p (min corpus.length m.chunksize)
                ((grouper (min corpus.length m.chunksize) corpus).map List.length)
                nu0
            · rw [List.getD_eq_default ls [] (Nat.le_of_not_lt hpl)] at h1
              cases h1

/-- C6 witness: a concrete one-pass online run (one singleton chunk,
`update_every = 1`) whose single M-step is logged with
`num_updates = 0` and `rho = powf(offset + 0 + 0, -decay) = offset = 1`
under the first-argument `powf`. -/
theorem c6_rho_schedule_witness :
    (([((0 : ℚ), (1 : ℚ))] : List (ℚ × ℚ))
        ∈ (logsOf (update nfQ rngQ modelQ [[((0 : Fin 1), (1 : ℚ))]])).getD 0 [])
      ∧ ([((0 : ℚ), (1 : ℚ))] : List (ℚ × ℚ)) = [((0 : ℚ), (1 : ℚ))]
      ∧ ∀ e ∈ ([((0 : ℚ), (1 : ℚ))] : List (ℚ × ℚ)),
          e.2 = rhoOf nfQ.powf modelQ.offset modelQ.decay 0
            (min ([[((0 : Fin 1), (1 : ℚ))]] : List (Doc ℚ 1)).length
              modelQ.chunksize) e.1 := by
  have hlog : logsOf (update nfQ rngQ modelQ [[((0 : Fin 1), (1 : ℚ))]])
      = [[[((0 : ℚ), (1 : ℚ))]]] := by
    simp only [update, passLoop, boundIterLoop, chunkFold, processChunk,
      flushDirty, alphaPass, evalTruthy, logsOf, grouper, grouperAux, rhoOf,
      pyIntDiv, modelQ, nfQ, rngQ, List.length_cons, List.length_nil]
    norm_num
  have hmem : ([((0 : ℚ), (1 : ℚ))] : List (ℚ × ℚ))
      ∈ (logsOf (update nfQ rngQ modelQ [[((0 : Fin 1), (1 : ℚ))]])).getD 0 [] := by
    rw [hlog]
    simp
  obtain ⟨h1, h2⟩ := c6_rho_schedule nfQ rngQ modelQ [[((0 : Fin 1), (1 : ℚ))]]
    0 _ _ hmem hmem
  exact ⟨hmem, h1, h2⟩

end GensimLda
